import Mathlib

/-!
Verification development for the imseq FASTQ multi-record aggregation core
(`src/fastq_multi_record.h`) and its FASTQ input layer (`fastq_io.h`).

The single-end code path is embedded in full: the deduplicating collection
(`FastqMultiRecordCollection`), its nested barcode/sequence index (`bcMap`,
modelled as association lists), the aggregate store (`multiRecordPtrs`,
modelled as a list of values addressed by index), the mean-quality update
functions, `findContainingMultiRecord`, `mergeRecord`, `getBarcodeStats`,
`splitBarcodeSeq`, `qualityControl` and the `readRecords` ingestion loop.
The paired-end `readTooShort` / `qualityControl` pair is embedded for the
single-end-fallback behaviour.

SeqAn `String<Dna5Q>` values carry one quality per base; comparison of such
strings (and hence `std::map` keying) considers the base only, so sequences
are modelled as lists of base/quality pairs and map keys as the base lists.
`String<float>` mean-quality vectors are modelled as lists of rationals.
-/

/-- One Dna5Q residue: a base character together with its quality value
(`getQualityValue` in SeqAn returns the quality). -/
structure DnaQ where
  base : Char
  qual : ℤ
deriving DecidableEq

/-- Key view of a quality-annotated sequence: the bases only.  SeqAn compares
`Dna5Q` strings by base, ignoring qualities, so the nested `std::map` keys of
the collection are these lists. -/
def bases (sq : List DnaQ) : List Char := sq.map (fun c => c.base)

/-- Modelled from the spec: the Sequence Record of the data model
(`FastqRecord<SingleEnd>` from the missing header `fastq_io_types.h`): an
identifier, one sequence payload with per-base qualities, and a barcode
payload.  Field usage matches `fastq_multi_record.h` and `fastq_io.h`. -/
structure FastqRecordSE where
  id : String
  seq : List DnaQ
  bcSeq : List DnaQ
deriving DecidableEq

/-- Modelled from the spec: the paired-end Sequence Record
(`FastqRecord<PairedEnd>` from the missing header `fastq_io_types.h`) with
forward and reverse payloads.  The reverse payload is the primary V(D)J read;
the forward payload is the secondary read that the single-end fallback may
zero out. -/
structure FastqRecordPE where
  id : String
  fwSeq : List DnaQ
  revSeq : List DnaQ
  bcSeq : List DnaQ
deriving DecidableEq

/-- Modelled from the spec: the Aggregate Record
(`FastqMultiRecord<SingleEnd>` from the missing header
`fastq_multi_record_types.h`): barcode and sequence payload copied from the
first contributing record, the set of contributing identifiers (`std::set`),
and the running mean quality vector (`String<float>`, modelled over ℚ).
Field usage matches `fastq_multi_record.h`. -/
structure FastqMultiRecordSE where
  ids : Finset String
  bcSeq : List DnaQ
  seq : List DnaQ
  qualities : List ℚ
deriving DecidableEq

instance : Inhabited FastqMultiRecordSE := ⟨⟨∅, [], [], []⟩⟩

/-- Modelled from the spec: the collection of aggregates
(`FastqMultiRecordCollection<SingleEnd>` from the missing types header).
`multiRecordPtrs` is the append-only aggregate store (owning pointers in the
source, values addressed by slot index here); `bcMap` is the nested content
index barcode → sequence → slot, with each `std::map` level modelled as an
association list. -/
structure FastqMultiRecordCollectionSE where
  multiRecordPtrs : List FastqMultiRecordSE
  bcMap : List (List Char × List (List Char × ℕ))
deriving DecidableEq

/-- Modelled from the spec: the reject reason taxonomy of `reject.h` (missing
header); the constructor names are the ones used by `fastq_multi_record.h`
and `fastq_io.h`. -/
inductive RejectReason where
  | NONE
  | TOO_SHORT_FOR_BARCODE
  | N_IN_BARCODE
  | LOW_QUALITY_BARCODE_BASE
  | AVERAGE_QUAL_FAIL
  | READ_TOO_SHORT
deriving DecidableEq

/-- Modelled from the spec: a Reject Event (`RejectEvent` of the missing
`reject.h`): the rejected record's identifier and the reason. -/
structure RejectEvent where
  id : String
  reason : RejectReason
deriving DecidableEq

/-- Modelled from the spec: the quality-control thresholds of `CdrOptions`
(missing `runtime_options.h`) that the embedded functions consult: barcode
length, which read carries the barcode, minimum barcode base quality,
minimum average read quality, minimum read length, the single-end fallback
flag, and the orientation flag. -/
structure CdrOptions where
  barcodeLength : ℕ
  barcodeVDJRead : Bool
  bcQmin : ℤ
  qmin : ℤ
  minReadLength : ℕ
  singleEndFallback : Bool
  reverse : Bool
deriving DecidableEq

/-- Modelled from the spec: `BarcodeStats` (missing types header), as filled
in by `getBarcodeStats`: per-barcode values plus grand totals. -/
structure BarcodeStats where
  bcSeqs : List (List Char)
  nReads : List ℕ
  nUniqueReads : List ℕ
  nTotalUniqueReads : ℕ
  nTotalReads : ℕ
deriving DecidableEq

/-- Modelled from the spec: the single-end input stream collaborator
(`SeqInputStreams<SingleEnd>` of the missing `fastq_io_types.h`): the
sequence of raw reads still to be delivered (identifier and raw sequence, as
produced by SeqAn `readRecord`) and the advisory total byte volume that
decides whether a progress bar is created. -/
structure SeqInputStreamsSE where
  reads : List (String × List DnaQ)
  totalInBytes : ℕ
deriving DecidableEq

/-- Result of one `readRecords` call: the collection and reject log after the
call, the boolean return value, and whether the run dereferenced the NULL
`ProgressBar` pointer (`progBar->clear()` with `progBar == NULL`), which in
the C++ source is undefined behaviour. -/
structure ReadRecordsResult where
  collection : FastqMultiRecordCollectionSE
  rejectEvents : List RejectEvent
  ret : Bool
  fault : Bool
deriving DecidableEq

/-! ### Association-list model of `std::map` -/

/-- Lookup in an association list; models `std::map::find`. -/
def mapFind {α : Type} : List (List Char × α) → List Char → Option α
  | [], _ => none
  | p :: m, k => if p.1 = k then some p.2 else mapFind m k

/-- Update-or-insert in an association list; models `std::map::operator[]`
followed by assignment.  (A `std::map` keeps keys sorted; the claims proved
below do not depend on iteration order.) -/
def mapSet {α : Type} : List (List Char × α) → List Char → α → List (List Char × α)
  | [], k, v => [(k, v)]
  | p :: m, k, v => if p.1 = k then (k, v) :: m else p :: mapSet m k v

/-! ### fastq_multi_record.h -/

/-- Source `getMultiRecord`: dereference a slot index of the aggregate
store.  Out-of-range access (excluded by the source's `SEQAN_CHECK`) is
totalised with the default record. -/
def getMR (coll : FastqMultiRecordCollectionSE) (idx : ℕ) : FastqMultiRecordSE :=
  coll.multiRecordPtrs.getD idx default

/-- Source `clear(FastqMultiRecordCollection&)`: deletes all aggregates and
clears the store and the index together. -/
def clearCollection (_ : FastqMultiRecordCollectionSE) : FastqMultiRecordCollectionSE :=
  ⟨[], []⟩

/-- The empty collection. -/
def emptyCollection : FastqMultiRecordCollectionSE := ⟨[], []⟩

/-- Source `toFastqRecordSkel` (single end): a `FastqRecord` with empty ID
and the aggregate's stored payloads. -/
def toFastqRecordSkel (mRec : FastqMultiRecordSE) : FastqRecordSE :=
  { id := "", seq := mRec.seq, bcSeq := mRec.bcSeq }

/-- Source `updateMeanQualityValues(String<float>&, uint64_t, String<float>
const&, uint64_t)`: the two-group merge form.  If the target vector is empty
it is replaced by the source vector; otherwise each position becomes the
weighted mean of the two group means. -/
def updateMeanQualityValuesGrp (targetQualities : List ℚ) (targetWeight : ℕ)
    (newQualities : List ℚ) (newWeight : ℕ) : List ℚ :=
  if targetQualities.length = 0 then newQualities
  else List.zipWith
    (fun t s => ((targetWeight : ℚ) * t + (newWeight : ℚ) * s) / ((targetWeight : ℚ) + (newWeight : ℚ)))
    targetQualities newQualities

/-- Source template `updateMeanQualityValues(String<float>&, uint64_t,
TQualSequence const&)`: fold one more quality sequence into a running mean of
`origWeight` contributors.  With weight 0 the vector is first resized to the
sequence length and filled with zeroes, exactly as in the source; the suffix
beyond the sequence length (empty in every checked use) is kept unchanged. -/
def updateMeanQualityValuesSeq (qualities : List ℚ) (origWeight : ℕ) (sq : List DnaQ) : List ℚ :=
  let qs := if origWeight = 0 then List.replicate sq.length (0 : ℚ) else qualities
  List.zipWith
    (fun q c => (q * (origWeight : ℚ) + ((c.qual : ℤ) : ℚ)) / ((origWeight : ℚ) + 1))
    qs sq ++ qs.drop sq.length

/-- Source `updateMeanQualityValues(FastqMultiRecord<SingleEnd>&, ... const&)`
as called by `mergeRecord`: merges the source aggregate's mean into the
target with the two-group form, using the two identifier-set sizes as
weights.  Only the `qualities` field of the target changes. -/
def updateMeanQualityValuesMulti (target source : FastqMultiRecordSE) : FastqMultiRecordSE :=
  { target with
    qualities := updateMeanQualityValuesGrp target.qualities target.ids.card
      source.qualities source.ids.card }

/-- Source `_generic_newMultiRecord` followed by the single-end
`newMultiRecord`: a fresh aggregate seeded from one record. -/
def newMultiRecord (record : FastqRecordSE) : FastqMultiRecordSE :=
  { ids := {record.id}
    bcSeq := record.bcSeq
    seq := record.seq
    qualities := updateMeanQualityValuesSeq [] 0 record.seq }

/-- Source `mapMultiRecord` (single end): append a copy of the aggregate to
the store and register the new slot index under its barcode and sequence in
the nested index.  Returns the collection and the new slot index (the source
returns a reference to the slot). -/
def mapMultiRecord (coll : FastqMultiRecordCollectionSE) (multiRecord : FastqMultiRecordSE) :
    FastqMultiRecordCollectionSE × ℕ :=
  let ptrs := coll.multiRecordPtrs ++ [multiRecord]
  let newIdx := ptrs.length - 1
  let inner := (mapFind coll.bcMap (bases multiRecord.bcSeq)).getD []
  ({ multiRecordPtrs := ptrs
     bcMap := mapSet coll.bcMap (bases multiRecord.bcSeq)
       (mapSet inner (bases multiRecord.seq) newIdx) }, newIdx)

/-- Source `updateMultiRecord` (single end): insert the record's identifier
into the aggregate and fold its qualities into the running mean, using the
identifier-set size before the insertion as the old weight. -/
def updateMultiRecord (multiRecord : FastqMultiRecordSE) (record : FastqRecordSE) :
    FastqMultiRecordSE :=
  let old_size := multiRecord.ids.card
  { multiRecord with
    ids := insert record.id multiRecord.ids
    qualities := updateMeanQualityValuesSeq multiRecord.qualities old_size record.seq }

/-- Source `findMultiRecordPosition` (single end): nested exact lookup
barcode, then sequence; `NO_MATCH` is modelled as `none`. -/
def findMultiRecordPosition (coll : FastqMultiRecordCollectionSE)
    (bcSeq sq : List Char) : Option ℕ :=
  match mapFind coll.bcMap bcSeq with
  | none => none
  | some seqMap => mapFind seqMap sq

/-- Source `findContainingMultiRecord`: look up the record's content; on a
hit return the slot (folding the record in first when `insrt` is set and the
identifier is new); on a miss insert a fresh aggregate when `insrt` is set.
Returns the possibly-updated collection and the slot (`none` models the NULL
return). -/
def findContainingMultiRecord (coll : FastqMultiRecordCollectionSE)
    (record : FastqRecordSE) (insrt : Bool) :
    FastqMultiRecordCollectionSE × Option ℕ :=
  match findMultiRecordPosition coll (bases record.bcSeq) (bases record.seq) with
  | some i =>
    let m := getMR coll i
    if record.id ∈ m.ids then (coll, some i)
    else if insrt = false then (coll, some i)
    else ({ coll with multiRecordPtrs := coll.multiRecordPtrs.set i (updateMultiRecord m record) },
          some i)
  | none =>
    if insrt = false then (coll, none)
    else
      let r := mapMultiRecord coll (newMultiRecord record)
      (r.1, some r.2)

/-- Source `mergeRecord`: probe for the incoming aggregate's content (via the
skeleton record, identifier set ignored, `insert = false`).  On a hit, merge
the mean quality vectors in place and return that slot.  On a miss, append
the aggregate to the store, take a reference to it, and hand that to
`mapMultiRecord` — which appends a second copy and registers the second
copy's index; the returned slot is the first copy's index, exactly as the
source's returned reference denotes the first copy. -/
def mergeRecord (coll : FastqMultiRecordCollectionSE) (rec : FastqMultiRecordSE) :
    FastqMultiRecordCollectionSE × ℕ :=
  let fr := findContainingMultiRecord coll (toFastqRecordSkel rec) false
  match fr.2 with
  | some i =>
    ({ fr.1 with
       multiRecordPtrs := fr.1.multiRecordPtrs.set i
         (updateMeanQualityValuesMulti (getMR fr.1 i) rec) }, i)
  | none =>
    let ptrs1 := coll.multiRecordPtrs ++ [rec]
    let newIdx := ptrs1.length - 1
    let coll1 : FastqMultiRecordCollectionSE := { coll with multiRecordPtrs := ptrs1 }
    let newRec := getMR coll1 newIdx
    let m := mapMultiRecord coll1 newRec
    (m.1, newIdx)

/-- Inner loop of source `getBarcodeStats` (single end): for one barcode's
sequence map, the pair `(cnt, seqMapSize)`: the sum of identifier-set sizes
and the number of aggregates with a non-empty identifier set. -/
def seqMapCounts (coll : FastqMultiRecordCollectionSE) : List (List Char × ℕ) → ℕ × ℕ
  | [] => (0, 0)
  | q :: rest =>
    let s := (getMR coll q.2).ids.card
    let r := seqMapCounts coll rest
    (s + r.1, (if 0 < s then 1 else 0) + r.2)

/-- Outer loop of source `getBarcodeStats` (single end): barcodes whose total
count is zero are skipped, all others append their barcode and counts and
accumulate the grand totals. -/
def statsAccum (coll : FastqMultiRecordCollectionSE) :
    List (List Char × List (List Char × ℕ)) → BarcodeStats
  | [] => ⟨[], [], [], 0, 0⟩
  | p :: rest =>
    let c := seqMapCounts coll p.2
    let s := statsAccum coll rest
    if 0 < c.1 then
      ⟨p.1 :: s.bcSeqs, c.1 :: s.nReads, c.2 :: s.nUniqueReads,
       c.2 + s.nTotalUniqueReads, c.1 + s.nTotalReads⟩
    else s

/-- Source `getBarcodeStats` (single end). -/
def getBarcodeStats (coll : FastqMultiRecordCollectionSE) : BarcodeStats :=
  statsAccum coll coll.bcMap

/-! ### fastq_io.h -/

/-- Source `splitBarcodeSeq(TSequence&, TSequence&, unsigned)`: returns the
success flag and the new values of `(seq, bcSeq)`.  Barcode length 0 is a
no-op; a sequence shorter than the barcode empties the barcode and fails;
otherwise the barcode prefix is split off the sequence. -/
def splitBarcodeSeq (sq bcSeq : List DnaQ) (barcodeLength : ℕ) :
    Bool × List DnaQ × List DnaQ :=
  if barcodeLength = 0 then (true, sq, bcSeq)
  else if sq.length < barcodeLength then (false, sq, [])
  else (true, sq.drop barcodeLength, sq.take barcodeLength)

/-- Source `readTooShort` (single end): pure length check. -/
def readTooShortSE (rec : FastqRecordSE) (minLength : ℕ) : Bool :=
  decide (rec.seq.length < minLength)

/-- Source `readTooShort` (paired end): rejects when the reverse (primary)
read is too short; accepts when the forward read is long enough; otherwise
the single-end fallback, when enabled, zeroes the forward read and accepts.
Returns the verdict together with the possibly-modified record. -/
def readTooShortPE (rec : FastqRecordPE) (minLength : ℕ) (singleEndFallback : Bool) :
    Bool × FastqRecordPE :=
  if rec.revSeq.length < minLength then (true, rec)
  else if minLength ≤ rec.fwSeq.length then (false, rec)
  else if singleEndFallback = false then (true, rec)
  else (false, { rec with fwSeq := [] })

/-- Modelled from the spec: SeqAn `contains(seq, 'N')` on the barcode (the
helper lives outside the provided sources): some base of the barcode is the
ambiguous base. -/
def containsN (sq : List DnaQ) : Bool :=
  sq.any (fun c => c.base = 'N')

/-- Modelled from the spec: `anyQualityBelow` of the missing `qc_basics.h`
("minimum barcode base quality"): some base's quality is below the
threshold. -/
def anyQualityBelow (sq : List DnaQ) (qmin : ℤ) : Bool :=
  sq.any (fun c => c.qual < qmin)

/-- Modelled from the spec: `averageQualityBelow` (single end) of the missing
`qc_basics.h` ("minimum average read quality"): the average quality of the
payload is below the threshold.  Stated multiplicatively to stay in ℤ. -/
def averageQualityBelowSE (rec : FastqRecordSE) (qmin : ℤ) : Bool :=
  decide ((rec.seq.map (fun c => c.qual)).sum < qmin * rec.seq.length)

/-- Modelled from the spec: `averageQualityBelow` (paired end) of the missing
`qc_basics.h`: the average quality over both payloads is below the
threshold.  The claims proved below never enable this check. -/
def averageQualityBelowPE (rec : FastqRecordPE) (qmin : ℤ) (_ : Bool) : Bool :=
  decide (((rec.fwSeq ++ rec.revSeq).map (fun c => c.qual)).sum
    < qmin * (rec.fwSeq ++ rec.revSeq).length)

/-- Source `qualityControl` template, single-end instance: the four checks in
source order. -/
def qualityControlSE (rec : FastqRecordSE) (options : CdrOptions) : RejectReason :=
  if containsN rec.bcSeq then .N_IN_BARCODE
  else if 0 < options.bcQmin ∧ anyQualityBelow rec.bcSeq options.bcQmin then
    .LOW_QUALITY_BARCODE_BASE
  else if 0 < options.qmin ∧ averageQualityBelowSE rec options.qmin then
    .AVERAGE_QUAL_FAIL
  else if readTooShortSE rec options.minReadLength then .READ_TOO_SHORT
  else .NONE

/-- Source `qualityControl` template, paired-end instance; `readTooShort`
may modify the record (single-end fallback), so the possibly-updated record
is returned alongside the verdict. -/
def qualityControlPE (rec : FastqRecordPE) (options : CdrOptions) :
    RejectReason × FastqRecordPE :=
  if containsN rec.bcSeq then (.N_IN_BARCODE, rec)
  else if 0 < options.bcQmin ∧ anyQualityBelow rec.bcSeq options.bcQmin then
    (.LOW_QUALITY_BARCODE_BASE, rec)
  else if 0 < options.qmin ∧ averageQualityBelowPE rec options.qmin options.singleEndFallback then
    (.AVERAGE_QUAL_FAIL, rec)
  else
    let ts := readTooShortPE rec options.minReadLength options.singleEndFallback
    (if ts.1 then .READ_TOO_SHORT else .NONE, ts.2)

/-- Source `approxSizeInBytes` (single end). -/
def approxSizeInBytes (rec : FastqRecordSE) : ℕ :=
  2 * rec.seq.length + 2 * rec.bcSeq.length + rec.id.length + 6

/-- One iteration's record acquisition in `readRecords` (single end): with a
configured barcode the record is read and `splitBarcodeSeq` applied (a
failure sets the `tsfb` flag and leaves the barcode empty); without one the
record is read as is and the barcode stays empty.  Returns `(tsfb, record)`. -/
def processRaw (options : CdrOptions) (raw : String × List DnaQ) : Bool × FastqRecordSE :=
  if 0 < options.barcodeLength then
    let r := splitBarcodeSeq raw.2 [] options.barcodeLength
    (!r.1, { id := raw.1, seq := r.2.1, bcSeq := r.2.2 })
  else
    (false, { id := raw.1, seq := raw.2, bcSeq := [] })

/-- The verdict `readRecords` assigns to one raw read: `TOO_SHORT_FOR_BARCODE`
when barcode splitting failed, the `qualityControl` verdict otherwise
(source line `RejectReason r = tsfb ? TOO_SHORT_FOR_BARCODE :
qualityControl(rec, options);`). -/
def verdictOf (options : CdrOptions) (raw : String × List DnaQ) : RejectReason :=
  let pr := processRaw options raw
  if pr.1 then .TOO_SHORT_FOR_BARCODE else qualityControlSE pr.2 options

/-- The while loop of source `readRecords`.  `hp` records whether a progress
bar was allocated (`totalInBytes > 0`).  The unguarded `progBar->clear()`
calls of the source — on the count-limit early return and after the loop —
dereference a NULL pointer when no progress bar exists; this is recorded in
the `fault` field.  The guarded `updateAndPrint` call only writes to the
progress bar, so of the byte counting only the `blockBytes` reset is
carried. -/
def readRecordsLoop (options : CdrOptions) (count : ℕ) (hp : Bool) :
    List (String × List DnaQ) → ℕ → ℕ → FastqMultiRecordCollectionSE →
    List RejectEvent → ReadRecordsResult
  | [], _, _, coll, rej => ⟨coll, rej, false, !hp⟩
  | raw :: rest, complCount, blockBytes, coll, rej =>
    if 0 < count ∧ complCount = count then ⟨coll, rej, true, !hp⟩
    else
      let pr := processRaw options raw
      let r := verdictOf options raw
      let bb2 := if (complCount + 1) % 1234 = 0 ∧ hp then 0
                 else blockBytes + approxSizeInBytes pr.2
      if r = RejectReason.NONE then
        readRecordsLoop options count hp rest (complCount + 1) bb2
          (findContainingMultiRecord coll pr.2 true).1 rej
      else
        readRecordsLoop options count hp rest (complCount + 1) bb2 coll
          (rej ++ [⟨pr.2.id, r⟩])

/-- Source `readRecords` (single end): allocate the progress bar only when a
total byte volume is reported, clear the collection, then run the loop. -/
def readRecords (collection : FastqMultiRecordCollectionSE)
    (rejectEvents : List RejectEvent) (inStreams : SeqInputStreamsSE)
    (options : CdrOptions) (count : ℕ) : ReadRecordsResult :=
  let hp : Bool := decide (0 < inStreams.totalInBytes)
  let coll0 := clearCollection collection
  readRecordsLoop options count hp inStreams.reads 0 0 coll0 rejectEvents

/-! ### Analysis helpers (not part of the source) -/

/-- The prefix of the raw-read stream that one `readRecords` call consumes,
mirroring the loop's count-limit check. -/
def consumedRaws (count : ℕ) : ℕ → List (String × List DnaQ) → List (String × List DnaQ)
  | _, [] => []
  | complCount, raw :: rest =>
    if 0 < count ∧ complCount = count then []
    else raw :: consumedRaws count (complCount + 1) rest

/-- The boolean `readRecords` returns: whether unconsumed input remains. -/
def moreAvailable (count : ℕ) : ℕ → List (String × List DnaQ) → Bool
  | _, [] => false
  | complCount, _ :: rest =>
    if 0 < count ∧ complCount = count then true
    else moreAvailable count (complCount + 1) rest

/-- The reject event one raw read contributes, if any. -/
def rejectOf (options : CdrOptions) (raw : String × List DnaQ) : Option RejectEvent :=
  if verdictOf options raw = RejectReason.NONE then none
  else some ⟨(processRaw options raw).2.id, verdictOf options raw⟩

/-- Folding one accepted record into the collection, as the ingestion loop
does. -/
def insertRecord (coll : FastqMultiRecordCollectionSE) (rec : FastqRecordSE) :
    FastqMultiRecordCollectionSE :=
  (findContainingMultiRecord coll rec true).1

/-- The records a `readRecords` call accepts and folds in, in order. -/
def acceptedRecs (options : CdrOptions) (count : ℕ) (reads : List (String × List DnaQ)) :
    List FastqRecordSE :=
  ((consumedRaws count 0 reads).filter
    (fun raw => decide (verdictOf options raw = RejectReason.NONE))).map
    (fun raw => (processRaw options raw).2)

/-- Identifier-and-content view of a record: what the collection
deduplicates on (identifier within an aggregate, content across
aggregates). -/
def tripleOf (rec : FastqRecordSE) : String × List Char × List Char :=
  (rec.id, bases rec.bcSeq, bases rec.seq)

/-- Flat view of the nested index: each registered (barcode, sequence) key
with its slot. -/
def entriesOf : List (List Char × List (List Char × ℕ)) →
    List ((List Char × List Char) × ℕ)
  | [] => []
  | p :: rest => p.2.map (fun q => ((p.1, q.1), q.2)) ++ entriesOf rest

/-! ### Concrete example inputs -/

/-- Barcode AAAA at quality 30. -/
def bcAAAA : List DnaQ := [⟨'A', 30⟩, ⟨'A', 30⟩, ⟨'A', 30⟩, ⟨'A', 30⟩]

/-- Read GATTACA with a uniform quality. -/
def seqGATTACA (q : ℤ) : List DnaQ :=
  [⟨'G', q⟩, ⟨'A', q⟩, ⟨'T', q⟩, ⟨'T', q⟩, ⟨'A', q⟩, ⟨'C', q⟩, ⟨'A', q⟩]

/-- Record r1 of the spec's worked example. -/
def recR1 : FastqRecordSE := { id := "r1", seq := seqGATTACA 30, bcSeq := bcAAAA }

/-- Record r2 of the spec's worked example: same content, different
identifier and qualities. -/
def recR2 : FastqRecordSE := { id := "r2", seq := seqGATTACA 10, bcSeq := bcAAAA }

/-- Collection holding r1 only. -/
def collOne : FastqMultiRecordCollectionSE := insertRecord emptyCollection recR1

/-- Collection after folding r1 then r2. -/
def collTwo : FastqMultiRecordCollectionSE := insertRecord collOne recR2

/-- Options that accept every record: no barcode, no quality thresholds. -/
def optsPermissive : CdrOptions :=
  { barcodeLength := 0, barcodeVDJRead := false, bcQmin := 0, qmin := 0,
    minReadLength := 0, singleEndFallback := false, reverse := false }

/-- Permissive options with a configured barcode of length 10. -/
def optsBarcode10 : CdrOptions := { optsPermissive with barcodeLength := 10 }

/-- Fresh aggregate holding only r1. -/
def mrA : FastqMultiRecordSE := newMultiRecord recR1

/-- Fresh aggregate holding only r2 (same content as `mrA`). -/
def mrB : FastqMultiRecordSE := newMultiRecord recR2

/-- The aggregate produced by `mergeRecord`'s hit path on `mrA` and `mrB`. -/
def mrMerged : FastqMultiRecordSE := updateMeanQualityValuesMulti mrA mrB

/-- Paired-end record whose forward (secondary) read is shorter than the
minimum read length 4 while the reverse (primary) read meets it. -/
def recPEx : FastqRecordPE :=
  { id := "p1", fwSeq := [⟨'A', 30⟩, ⟨'C', 30⟩], revSeq := seqGATTACA 30, bcSeq := [] }

/-- Permissive paired-end options with minimum read length 4 and the
single-end fallback enabled. -/
def optsPE : CdrOptions :=
  { optsPermissive with minReadLength := 4, singleEndFallback := true }

/-- Input stream delivering the same record (identifier r1, content
AAAA/GATTACA) twice, with a reported byte volume. -/
def streamDup : SeqInputStreamsSE :=
  { reads := [("r1", seqGATTACA 30), ("r1", seqGATTACA 30)], totalInBytes := 5 }

/-- Weight implied by the mean-quality recomputation history of an
aggregate: seeding contributes weight 1, folding one record adds 1, and the
two-group merge of `mergeRecord` (on matching content) adds the weights, the
divisor its mean-update uses.  The side conditions are the ones the source
guarantees at each call site: `updateMultiRecord` is reached only for a
fresh identifier on a content hit, the merge only on a content hit. -/
inductive BuiltWeight : FastqMultiRecordSE → ℕ → Prop
  | new (r : FastqRecordSE) : BuiltWeight (newMultiRecord r) 1
  | update (m : FastqMultiRecordSE) (n : ℕ) (r : FastqRecordSE)
      (hid : r.id ∉ m.ids) (hseq : bases r.seq = bases m.seq) :
      BuiltWeight m n → BuiltWeight (updateMultiRecord m r) (n + 1)
  | merge (t s : FastqMultiRecordSE) (nt ns : ℕ)
      (hbc : bases s.bcSeq = bases t.bcSeq) (hsq : bases s.seq = bases t.seq) :
      BuiltWeight t nt → BuiltWeight s ns →
      BuiltWeight (updateMeanQualityValuesMulti t s) (nt + ns)

/-- The aggregates reachable through `newMultiRecord` and
`updateMultiRecord` alone (no `mergeRecord`), with their contribution
count. -/
inductive BuiltNewUpdate : FastqMultiRecordSE → ℕ → Prop
  | new (r : FastqRecordSE) : BuiltNewUpdate (newMultiRecord r) 1
  | update (m : FastqMultiRecordSE) (n : ℕ) (r : FastqRecordSE)
      (hid : r.id ∉ m.ids) (hseq : bases r.seq = bases m.seq) :
      BuiltNewUpdate m n → BuiltNewUpdate (updateMultiRecord m r) (n + 1)

/-- Total of all identifier-set sizes registered in the index: what the
grand total of `getBarcodeStats` computes (barcodes with count zero
contribute zero either way). -/
def sumCards (coll : FastqMultiRecordCollectionSE) : ℕ :=
  ((entriesOf coll.bcMap).map (fun e => (getMR coll e.2).ids.card)).sum

/-- Structural invariant of collections built by the ingestion loop from
empty, relating the collection to the set `S` of identifier-and-content
triples folded in so far: the nested maps have distinct keys, every
registered slot is live and registered once, the identifier sets are
exactly the fibers of `S`, and the registered sizes sum to `S.card`. -/
structure CollInv (coll : FastqMultiRecordCollectionSE)
    (S : Finset (String × List Char × List Char)) : Prop where
  outerNodup : (coll.bcMap.map Prod.fst).Nodup
  innerNodup : ∀ p ∈ coll.bcMap, (p.2.map Prod.fst).Nodup
  idxLt : ∀ e ∈ entriesOf coll.bcMap, e.2 < coll.multiRecordPtrs.length
  idxNodup : ((entriesOf coll.bcMap).map Prod.snd).Nodup
  content : ∀ (idv : String) (bc sq : List Char), ((idv, bc, sq) ∈ S) ↔
    ∃ i, ((bc, sq), i) ∈ entriesOf coll.bcMap ∧ idv ∈ (getMR coll i).ids
  total : sumCards coll = S.card

/-! ### Generic lemmas -/

theorem mapFind_mapSet_self {α : Type} (m : List (List Char × α)) (k : List Char) (v : α) :
    mapFind (mapSet m k v) k = some v := by
  induction m with
  | nil => simp [mapFind, mapSet]
  | cons p m ih =>
    by_cases h : p.1 = k
    · simp [mapFind, mapSet, h]
    · simp [mapFind, mapSet, h, ih]

theorem mapFind_mapSet_ne {α : Type} (m : List (List Char × α)) (k k' : List Char) (v : α)
    (h : k' ≠ k) : mapFind (mapSet m k v) k' = mapFind m k' := by
  have hk : k ≠ k' := Ne.symm h
  induction m with
  | nil => simp [mapFind, mapSet, hk]
  | cons p m ih =>
    by_cases hp : p.1 = k
    · subst hp
      simp [mapFind, mapSet, hk]
    · simp [mapFind, mapSet, hp, ih]

theorem mapSet_absent {α : Type} (m : List (List Char × α)) (k : List Char) (v : α)
    (h : mapFind m k = none) : mapSet m k v = m ++ [(k, v)] := by
  induction m with
  | nil => simp [mapSet]
  | cons p m ih =>
    by_cases hp : p.1 = k
    · simp [mapFind, hp] at h
    · simp [mapFind, hp] at h
      simp [mapSet, hp, ih h]

theorem mapSet_present_decomp {α : Type} (m : List (List Char × α)) (k : List Char) (v : α)
    (h : mapFind m k = some v) :
    ∃ m1 m2, m = m1 ++ (k, v) :: m2 ∧ (∀ p ∈ m1, p.1 ≠ k) ∧
      ∀ v', mapSet m k v' = m1 ++ (k, v') :: m2 := by
  induction m with
  | nil => simp [mapFind] at h
  | cons p m ih =>
    by_cases hp : p.1 = k
    · refine ⟨[], m, ?_, by simp, ?_⟩
      · simp [mapFind, hp] at h
        simp [← hp, ← h]
      · intro v'
        simp [mapSet, hp]
    · simp [mapFind, hp] at h
      obtain ⟨m1, m2, hm, hm1, hset⟩ := ih h
      refine ⟨p :: m1, m2, by simp [hm], ?_, ?_⟩
      · intro q hq
        rcases List.mem_cons.mp hq with hq | hq
        · simpa [hq] using hp
        · exact hm1 q hq
      · intro v'
        simp [mapSet, hp, hset v']

theorem mapFind_of_mem {α : Type} (m : List (List Char × α)) (k : List Char) (v : α)
    (hnd : (m.map Prod.fst).Nodup) (hmem : (k, v) ∈ m) : mapFind m k = some v := by
  induction m with
  | nil => cases hmem
  | cons p m ih =>
    rw [List.map_cons, List.nodup_cons] at hnd
    rcases List.mem_cons.mp hmem with hmem | hmem
    · simp [mapFind, ← hmem]
    · have hk : p.1 ≠ k := by
        intro hk
        apply hnd.1
        rw [hk]
        exact List.mem_map_of_mem Prod.fst hmem
      simp [mapFind, hk, ih hnd.2 hmem]

theorem mem_of_mapFind {α : Type} (m : List (List Char × α)) (k : List Char) (v : α)
    (h : mapFind m k = some v) : (k, v) ∈ m := by
  induction m with
  | nil => simp [mapFind] at h
  | cons p m ih =>
    by_cases hp : p.1 = k
    · simp only [mapFind, if_pos hp, Option.some.injEq] at h
      exact List.mem_cons.mpr (Or.inl (by rw [← hp, ← h]))
    · simp only [mapFind, if_neg hp] at h
      exact List.mem_cons.mpr (Or.inr (ih h))

/-! ### Loop characterization -/

theorem readRecordsLoop_spec (options : CdrOptions) (count : ℕ) (hp : Bool) :
    ∀ (reads : List (String × List DnaQ)) (complCount blockBytes : ℕ)
      (coll : FastqMultiRecordCollectionSE) (rej : List RejectEvent),
    readRecordsLoop options count hp reads complCount blockBytes coll rej =
      ⟨ (consumedRaws count complCount reads).foldl
          (fun c raw => if verdictOf options raw = RejectReason.NONE then
            insertRecord c (processRaw options raw).2 else c) coll,
        rej ++ (consumedRaws count complCount reads).filterMap (rejectOf options),
        moreAvailable count complCount reads,
        !hp ⟩ := by
  intro reads
  induction reads with
  | nil =>
    intro complCount blockBytes coll rej
    simp [readRecordsLoop, consumedRaws, moreAvailable]
  | cons raw rest ih =>
    intro complCount blockBytes coll rej
    rw [readRecordsLoop, consumedRaws, moreAvailable]
    by_cases hc : 0 < count ∧ complCount = count
    · simp [hc]
    · rw [if_neg hc, if_neg hc, if_neg hc]
      by_cases hv : verdictOf options raw = RejectReason.NONE
      · simp [hv, ih, rejectOf, insertRecord]
      · simp [hv, ih, rejectOf]

/-! ### Helper lemmas on the mean-quality update -/

theorem zipWith_replicate_left_length {α β γ : Type} (f : α → β → γ) (a : α) :
    ∀ l : List β, List.zipWith f (List.replicate l.length a) l = l.map (f a)
  | [] => rfl
  | b :: l => by
    simp [List.replicate, zipWith_replicate_left_length f a l]

theorem updateMeanQualityValuesSeq_zero_weight (sq : List DnaQ) :
    updateMeanQualityValuesSeq [] 0 sq = sq.map (fun c => ((c.qual : ℤ) : ℚ)) := by
  rw [updateMeanQualityValuesSeq]
  simp [zipWith_replicate_left_length]

theorem updateMeanQualityValuesSeq_pos_weight (qs : List ℚ) (w : ℕ) (sq : List DnaQ)
    (hw : 0 < w) (hlen : qs.length = sq.length) :
    updateMeanQualityValuesSeq qs w sq
      = List.zipWith (fun q c => (q * (w : ℚ) + ((c.qual : ℤ) : ℚ)) / ((w : ℚ) + 1)) qs sq := by
  rw [updateMeanQualityValuesSeq]
  have hw' : ¬ w = 0 := by omega
  simp [hw', hlen, List.drop_length]

theorem updateMeanQualityValuesSeq_length (qs : List ℚ) (w : ℕ) (sq : List DnaQ)
    (hlen : w = 0 ∨ qs.length = sq.length) :
    (updateMeanQualityValuesSeq qs w sq).length = sq.length := by
  rcases hlen with h | h
  · subst h
    rw [updateMeanQualityValuesSeq]
    simp
  · rw [updateMeanQualityValuesSeq]
    by_cases hw : w = 0 <;> simp [hw, h, List.drop_length]

theorem foldl_filter_map {α β γ : Type} (P : α → Prop) [DecidablePred P] (h : α → γ)
    (g : β → γ → β) : ∀ (l : List α) (b : β),
    l.foldl (fun c x => if P x then g c (h x) else c) b
      = ((l.filter (fun x => decide (P x))).map h).foldl g b := by
  intro l
  induction l with
  | nil => intro b; rfl
  | cons a l ih =>
    intro b
    by_cases ha : P a <;> simp [ha, ih]

theorem getD_append_length (l : List FastqMultiRecordSE) (a d : FastqMultiRecordSE) :
    (l ++ [a]).getD l.length d = a := by
  induction l with
  | nil => rfl
  | cons b l ih => simp [ih]

/-! ### The claims -/

/-- C10: `splitBarcodeSeq` with `0 < n ≤ length s` succeeds, making the
barcode the first `n` residues and the sequence the remaining suffix, whose
concatenation restores `s`; with `length s < n` it fails, empties the
barcode and leaves the sequence unchanged; with `n = 0` it succeeds and
modifies nothing. -/
theorem claim_C10 (s bc : List DnaQ) (n : ℕ) :
    (0 < n → n ≤ s.length →
      splitBarcodeSeq s bc n = (true, s.drop n, s.take n) ∧ s.take n ++ s.drop n = s)
    ∧ (s.length < n → splitBarcodeSeq s bc n = (false, s, []))
    ∧ (n = 0 → splitBarcodeSeq s bc n = (true, s, bc)) := by
  refine ⟨?_, ?_, ?_⟩
  · intro hn hle
    have h0 : ¬ n = 0 := by omega
    have h1 : ¬ s.length < n := by omega
    exact ⟨by simp [splitBarcodeSeq, h0, h1], List.take_append_drop n s⟩
  · intro hlt
    have h0 : ¬ n = 0 := by omega
    simp [splitBarcodeSeq, h0, hlt]
  · intro h0
    simp [splitBarcodeSeq, h0]

/-- Witness for C10 at a read of length 7 and barcode length 3. -/
theorem claim_C10_witness :
    splitBarcodeSeq (seqGATTACA 30) [] 3
      = (true, (seqGATTACA 30).drop 3, (seqGATTACA 30).take 3)
    ∧ (seqGATTACA 30).take 3 ++ (seqGATTACA 30).drop 3 = seqGATTACA 30 :=
  (claim_C10 (seqGATTACA 30) [] 3).1 (by decide) (by decide)

/-- C4: re-submitting a record already folded into the collection (its
content is indexed at slot `i` and its identifier is already in that
aggregate's identifier set) through `findContainingMultiRecord` with
`insert = true` changes nothing and returns the same slot. -/
theorem claim_C4 (coll : FastqMultiRecordCollectionSE) (r : FastqRecordSE) (i : ℕ)
    (hpos : findMultiRecordPosition coll (bases r.bcSeq) (bases r.seq) = some i)
    (hmem : r.id ∈ (getMR coll i).ids) :
    findContainingMultiRecord coll r true = (coll, some i) := by
  simp [findContainingMultiRecord, hpos, hmem]

/-- Witness for C4: r1 resubmitted to the collection already holding it. -/
theorem claim_C4_witness :
    findContainingMultiRecord collOne recR1 true = (collOne, some 0) :=
  claim_C4 collOne recR1 0 (by decide) (by decide)

/-- C8: `readRecords` resets the index and the store together at its start
(`clear` empties both), so its outcome is independent of whatever the
collection held before the call. -/
theorem claim_C8 :
    (∀ c : FastqMultiRecordCollectionSE, clearCollection c = emptyCollection)
    ∧ ∀ (c1 c2 : FastqMultiRecordCollectionSE) (rej : List RejectEvent)
        (s : SeqInputStreamsSE) (opts : CdrOptions) (n : ℕ),
        readRecords c1 rej s opts n = readRecords c2 rej s opts n :=
  ⟨fun _ => rfl, fun _ _ _ _ _ _ => rfl⟩

/-- C6: the advisory byte volume never changes the collection, the reject
log or the return value of `readRecords`, but it does change faulting: with
`totalInBytes = 0` no progress bar is allocated and every terminating path
still executes `progBar->clear()` on the NULL pointer, so the run faults —
exhibited concretely on the empty stream. -/
theorem claim_C6_fault :
    (∀ (c : FastqMultiRecordCollectionSE) (rej : List RejectEvent)
       (reads : List (String × List DnaQ)) (opts : CdrOptions) (n tb tb' : ℕ),
      (readRecords c rej ⟨reads, tb⟩ opts n).fault = decide (tb = 0)
      ∧ (readRecords c rej ⟨reads, tb⟩ opts n).collection
          = (readRecords c rej ⟨reads, tb'⟩ opts n).collection
      ∧ (readRecords c rej ⟨reads, tb⟩ opts n).rejectEvents
          = (readRecords c rej ⟨reads, tb'⟩ opts n).rejectEvents
      ∧ (readRecords c rej ⟨reads, tb⟩ opts n).ret
          = (readRecords c rej ⟨reads, tb'⟩ opts n).ret)
    ∧ (readRecords emptyCollection [] ⟨[], 0⟩ optsPermissive 0).fault = true := by
  constructor
  · intro c rej reads opts n tb tb'
    refine ⟨?_, ?_, ?_, ?_⟩
    · simp only [readRecords, readRecordsLoop_spec]
      cases tb <;> simp
    · simp [readRecords, readRecordsLoop_spec]
    · simp [readRecords, readRecordsLoop_spec]
    · simp [readRecords, readRecordsLoop_spec]
  · rfl

/-- C7: with a configured barcode, a raw read shorter than the barcode
length gets the synthesized verdict `TOO_SHORT_FOR_BARCODE` no matter what
the quality-control thresholds are, contributes exactly its one reject event
carrying its identifier and that reason, and the collection is built from
the accepted records only — which never include it. -/
theorem claim_C7 (opts : CdrOptions) (raw : String × List DnaQ)
    (hbl : 0 < opts.barcodeLength) (hshort : raw.2.length < opts.barcodeLength) :
    (∀ opts2 : CdrOptions, opts2.barcodeLength = opts.barcodeLength →
      verdictOf opts2 raw = RejectReason.TOO_SHORT_FOR_BARCODE)
    ∧ rejectOf opts raw = some ⟨raw.1, RejectReason.TOO_SHORT_FOR_BARCODE⟩
    ∧ ∀ (c0 : FastqMultiRecordCollectionSE) (rej0 : List RejectEvent)
        (streams : SeqInputStreamsSE) (count : ℕ),
        (readRecords c0 rej0 streams opts count).rejectEvents
          = rej0 ++ (consumedRaws count 0 streams.reads).filterMap (rejectOf opts)
        ∧ (readRecords c0 rej0 streams opts count).collection
          = (acceptedRecs opts count streams.reads).foldl insertRecord emptyCollection := by
  have h0 : ¬ opts.barcodeLength = 0 := by omega
  have hv : ∀ opts2 : CdrOptions, opts2.barcodeLength = opts.barcodeLength →
      verdictOf opts2 raw = RejectReason.TOO_SHORT_FOR_BARCODE := by
    intro opts2 h2
    simp [verdictOf, processRaw, h2, hbl, splitBarcodeSeq, h0, hshort]
  refine ⟨hv, ?_, ?_⟩
  · simp [rejectOf, hv opts rfl, processRaw, hbl, splitBarcodeSeq, h0, hshort]
  · intro c0 rej0 streams count
    constructor
    · simp [readRecords, readRecordsLoop_spec]
    · simp only [readRecords, readRecordsLoop_spec, acceptedRecs, clearCollection]
      rw [foldl_filter_map (fun w => verdictOf opts w = RejectReason.NONE)
        (fun w => (processRaw opts w).2) insertRecord]
      rfl

/-- Witness for C7: barcode length 10, raw read of length 7. -/
theorem claim_C7_witness :
    verdictOf optsBarcode10 ("rx", seqGATTACA 30) = RejectReason.TOO_SHORT_FOR_BARCODE
    ∧ rejectOf optsBarcode10 ("rx", seqGATTACA 30)
        = some ⟨"rx", RejectReason.TOO_SHORT_FOR_BARCODE⟩ :=
  ⟨(claim_C7 optsBarcode10 ("rx", seqGATTACA 30) (by decide) (by decide)).1 optsBarcode10 rfl,
   (claim_C7 optsBarcode10 ("rx", seqGATTACA 30) (by decide) (by decide)).2.1⟩

/-- C9: in paired mode, when the forward (secondary) payload is shorter than
the minimum read length while the reverse payload meets it, the pair passes
the length check with the single-end fallback enabled — the forward payload
being zeroed — and is rejected with `READ_TOO_SHORT` with it disabled;
`qualityControl` behaves accordingly whenever the earlier barcode and
quality checks pass. -/
theorem claim_C9 (rec : FastqRecordPE) (opts : CdrOptions)
    (hfw : rec.fwSeq.length < opts.minReadLength)
    (hrev : opts.minReadLength ≤ rec.revSeq.length) :
    readTooShortPE rec opts.minReadLength true = (false, { rec with fwSeq := [] })
    ∧ readTooShortPE rec opts.minReadLength false = (true, rec)
    ∧ (containsN rec.bcSeq = false →
       ¬(0 < opts.bcQmin ∧ anyQualityBelow rec.bcSeq opts.bcQmin) →
       ¬(0 < opts.qmin ∧ averageQualityBelowPE rec opts.qmin opts.singleEndFallback) →
       (opts.singleEndFallback = true →
          qualityControlPE rec opts = (RejectReason.NONE, { rec with fwSeq := [] }))
       ∧ (opts.singleEndFallback = false →
          qualityControlPE rec opts = (RejectReason.READ_TOO_SHORT, rec))) := by
  have h1 : ¬ rec.revSeq.length < opts.minReadLength := by omega
  have h2 : ¬ opts.minReadLength ≤ rec.fwSeq.length := by omega
  refine ⟨by simp [readTooShortPE, h1, h2], by simp [readTooShortPE, h1, h2], ?_⟩
  intro hn hbc hq
  constructor <;> intro hf <;> rw [hf] at hq <;>
    simp [qualityControlPE, hn, hbc, hq, readTooShortPE, h1, h2, hf]

/-- Witness for C9 at a concrete pair (forward length 2, reverse length 7,
minimum 4): fallback keeps the pair with a zeroed forward read. -/
theorem claim_C9_witness :
    readTooShortPE recPEx 4 true = (false, { recPEx with fwSeq := [] })
    ∧ qualityControlPE recPEx optsPE = (RejectReason.NONE, { recPEx with fwSeq := [] }) :=
  ⟨(claim_C9 recPEx optsPE (by decide) (by decide)).1,
   ((claim_C9 recPEx optsPE (by decide) (by decide)).2.2 (by decide) (by decide)
     (by decide)).1 rfl⟩

/-- C5: folding a record with a new identifier into an aggregate of old
weight `w` updates every mean position to `(oldMean * w + newQuality) /
(w + 1)`, initializing the vector from the record's qualities when `w = 0`;
on the worked example — r1 at quality 30 followed by r2 at quality 10, same
content — the collection holds one aggregate with identifiers r1 and r2 and
mean quality vector `[20] * 7`. -/
theorem claim_C5 :
    (∀ (qs : List ℚ) (w : ℕ) (sq : List DnaQ), 0 < w → qs.length = sq.length →
      updateMeanQualityValuesSeq qs w sq
        = List.zipWith (fun q c => (q * (w : ℚ) + ((c.qual : ℤ) : ℚ)) / ((w : ℚ) + 1)) qs sq)
    ∧ (∀ sq : List DnaQ,
        updateMeanQualityValuesSeq [] 0 sq = sq.map (fun c => ((c.qual : ℤ) : ℚ)))
    ∧ collTwo.multiRecordPtrs.length = 1
    ∧ (getMR collTwo 0).ids.card = 2
    ∧ "r1" ∈ (getMR collTwo 0).ids
    ∧ "r2" ∈ (getMR collTwo 0).ids
    ∧ (getMR collTwo 0).qualities = List.replicate 7 (20 : ℚ) := by
  refine ⟨updateMeanQualityValuesSeq_pos_weight, updateMeanQualityValuesSeq_zero_weight,
    by decide, by decide, by decide, by decide, ?_⟩
  simp [collTwo, collOne, insertRecord, findContainingMultiRecord, findMultiRecordPosition,
    mapFind, mapSet, emptyCollection, mapMultiRecord, newMultiRecord, updateMultiRecord,
    updateMeanQualityValuesSeq, getMR, recR1, recR2, seqGATTACA, bcAAAA, bases, List.replicate]
  norm_num

/-- Witness for C5's incremental formula: old mean 15 at weight 1, new
quality 25, new mean (15 + 25) / 2 = 20. -/
theorem claim_C5_witness :
    updateMeanQualityValuesSeq [(15 : ℚ)] 1 [⟨'A', 25⟩] = [(20 : ℚ)] := by
  rw [claim_C5.1 [(15 : ℚ)] 1 [⟨'A', 25⟩] (by decide) (by decide)]
  norm_num

/-- C2 counterexample: merging aggregate B (one contributor, r2) into a
collection whose content-matching aggregate A holds one contributor (r1)
produces — by the claim's own two-group weights — an aggregate of history
weight 1 + 1 = 2 whose identifier set still has size 1: the source's
`mergeRecord` never adds the source identifiers, so the claimed invariant
fails for `mergeRecord`. -/
theorem claim_C2_counterexample :
    BuiltWeight mrMerged 2 ∧ ¬ (mrMerged.ids.card = 2) := by
  constructor
  · exact BuiltWeight.merge mrA mrB 1 1 (by decide) (by decide)
      (BuiltWeight.new recR1) (BuiltWeight.new recR2)
  · decide

/-- C2 amended: for the operations that fold individual records —
`newMultiRecord` and `updateMultiRecord` as invoked by the source (content
hit, fresh identifier) — the identifier-set size equals the contribution
count and the mean vector's length equals the payload's length; the
`mergeRecord` mean-merge preserves the mean length but leaves the
identifier set unchanged instead of absorbing the source's identifiers or
weight. -/
theorem claim_C2_amended :
    (∀ (m : FastqMultiRecordSE) (n : ℕ), BuiltNewUpdate m n →
      1 ≤ n ∧ m.ids.card = n ∧ m.qualities.length = m.seq.length)
    ∧ ∀ t s : FastqMultiRecordSE,
        (updateMeanQualityValuesMulti t s).ids = t.ids
        ∧ (t.qualities.length = t.seq.length → s.qualities.length = s.seq.length →
           s.seq.length = t.seq.length →
           (updateMeanQualityValuesMulti t s).qualities.length = t.seq.length) := by
  constructor
  · intro m n h
    induction h with
    | new r =>
      refine ⟨le_refl 1, ?_, ?_⟩
      · simp [newMultiRecord]
      · simp [newMultiRecord, updateMeanQualityValuesSeq_zero_weight]
    | update m n r hid hseq hm ih =>
      have hlen : r.seq.length = m.seq.length := by
        have := congrArg List.length hseq
        simpa [bases] using this
      refine ⟨by omega, ?_, ?_⟩
      · simp [updateMultiRecord, Finset.card_insert_of_not_mem hid, ih.2.1]
      · have hcard : 0 < m.ids.card := by omega
        rw [updateMultiRecord]
        simp only []
        rw [updateMeanQualityValuesSeq_pos_weight m.qualities m.ids.card r.seq
          (by omega) (by rw [ih.2.2, hlen])]
        simp [hlen, ih.2.2]
  · intro t s
    refine ⟨rfl, ?_⟩
    intro ht hs hst
    rw [updateMeanQualityValuesMulti, updateMeanQualityValuesGrp]
    by_cases h0 : t.qualities.length = 0
    · simp [h0]
      omega
    · simp [h0]
      omega

/-- Witness for C2's amended statement: a freshly seeded aggregate has one
identifier, and the merge update keeps the target's identifier set. -/
theorem claim_C2_witness :
    (newMultiRecord recR1).ids.card = 1
    ∧ (updateMeanQualityValuesMulti mrA mrB).ids = mrA.ids :=
  ⟨(claim_C2_amended.1 (newMultiRecord recR1) 1 (BuiltNewUpdate.new recR1)).2.1,
   (claim_C2_amended.2 mrA mrB).1⟩

/-- C1 counterexample: merging aggregate B (identifier r2, content matching)
into the empty collection appends two copies of it to the store — not
exactly one — and merging it into the collection holding r1's aggregate
leaves the destination's identifier set at size 1 without r2, not the
claimed union of both identifier sets. -/
theorem claim_C1_counterexample :
    (mergeRecord emptyCollection mrB).1.multiRecordPtrs.length = 2
    ∧ (getMR (mergeRecord collOne mrB).1 (mergeRecord collOne mrB).2).ids.card = 1
    ∧ "r2" ∉ (getMR (mergeRecord collOne mrB).1 (mergeRecord collOne mrB).2).ids := by
  exact ⟨by decide, by decide, by decide⟩

/-- C1 amended: `mergeRecord` locates the destination by the incoming
aggregate's stored content, ignoring its identifier set.  On a content hit
it combines the two mean quality vectors with the two-group form weighted by
the two identifier-set sizes but leaves the destination's identifier set
unchanged (no union).  When no content match exists it appends two copies of
the incoming aggregate to the store, registers the second copy's slot in the
index, and returns the first copy's slot. -/
theorem claim_C1_amended (coll : FastqMultiRecordCollectionSE) (rec : FastqMultiRecordSE) :
    (∀ i, findMultiRecordPosition coll (bases rec.bcSeq) (bases rec.seq) = some i →
      mergeRecord coll rec =
        ({ coll with multiRecordPtrs :=
            coll.multiRecordPtrs.set i (updateMeanQualityValuesMulti (getMR coll i) rec) }, i)
      ∧ (updateMeanQualityValuesMulti (getMR coll i) rec).ids = (getMR coll i).ids
      ∧ (updateMeanQualityValuesMulti (getMR coll i) rec).qualities
          = updateMeanQualityValuesGrp (getMR coll i).qualities (getMR coll i).ids.card
              rec.qualities rec.ids.card)
    ∧ (findMultiRecordPosition coll (bases rec.bcSeq) (bases rec.seq) = none →
      (mergeRecord coll rec).1.multiRecordPtrs = coll.multiRecordPtrs ++ [rec, rec]
      ∧ (mergeRecord coll rec).2 = coll.multiRecordPtrs.length
      ∧ findMultiRecordPosition (mergeRecord coll rec).1 (bases rec.bcSeq) (bases rec.seq)
          = some (coll.multiRecordPtrs.length + 1)) := by
  constructor
  · intro i hpos
    have hfr : findContainingMultiRecord coll (toFastqRecordSkel rec) false = (coll, some i) := by
      by_cases hm : (toFastqRecordSkel rec).id ∈ (getMR coll i).ids <;>
        simp [findContainingMultiRecord, toFastqRecordSkel, hpos, hm]
    refine ⟨?_, rfl, rfl⟩
    simp [mergeRecord, hfr]
  · intro hpos
    have hfr : findContainingMultiRecord coll (toFastqRecordSkel rec) false = (coll, none) := by
      simp [findContainingMultiRecord, toFastqRecordSkel, hpos]
    have hget : getMR { coll with multiRecordPtrs := coll.multiRecordPtrs ++ [rec] }
        coll.multiRecordPtrs.length = rec := by
      simp only [getMR]
      exact getD_append_length coll.multiRecordPtrs rec default
    refine ⟨?_, ?_, ?_⟩
    · simp [mergeRecord, hfr, hget, mapMultiRecord]
    · simp [mergeRecord, hfr]
    · simp [mergeRecord, hfr, hget, mapMultiRecord, findMultiRecordPosition,
        mapFind_mapSet_self]

/-- Witness for C1's amended statement: merging B into the collection
holding r1's aggregate hits slot 0 and rewrites it in place. -/
theorem claim_C1_witness :
    mergeRecord collOne mrB =
      ({ collOne with multiRecordPtrs :=
          collOne.multiRecordPtrs.set 0 (updateMeanQualityValuesMulti (getMR collOne 0) mrB) },
       0) :=
  ((claim_C1_amended collOne mrB).1 0 (by decide)).1

/-! ### Lemmas towards C3: index structure -/

theorem key_not_mem_of_mapFind_none {α : Type} (m : List (List Char × α)) (k : List Char)
    (h : mapFind m k = none) : k ∉ m.map Prod.fst := by
  induction m with
  | nil => simp
  | cons p m ih =>
    by_cases hp : p.1 = k
    · simp [mapFind, hp] at h
    · simp [mapFind, hp] at h
      simp only [List.map_cons, List.mem_cons]
      push_neg
      exact ⟨fun hk => hp hk.symm, ih h⟩

theorem entriesOf_append (m1 m2 : List (List Char × List (List Char × ℕ))) :
    entriesOf (m1 ++ m2) = entriesOf m1 ++ entriesOf m2 := by
  induction m1 with
  | nil => rfl
  | cons p m1 ih => simp [entriesOf, ih]

theorem mem_entriesOf (m : List (List Char × List (List Char × ℕ)))
    (bc sq : List Char) (i : ℕ) :
    ((bc, sq), i) ∈ entriesOf m ↔ ∃ inner, (bc, inner) ∈ m ∧ (sq, i) ∈ inner := by
  induction m with
  | nil => simp [entriesOf]
  | cons p m ih =>
    simp only [entriesOf, List.mem_append, List.mem_map, ih, List.mem_cons]
    constructor
    · rintro (⟨q, hq, he⟩ | ⟨inner, hm, hi⟩)
      · refine ⟨p.2, Or.inl ?_, ?_⟩
        · have h1 : p.1 = bc := by
            have := congrArg (fun e => e.1.1) he
            simpa using this
          have : (p.1, p.2) = p := rfl
          rw [← this, h1]
        · have h2 : q.1 = sq := by
            have := congrArg (fun e => e.1.2) he
            simpa using this
          have h3 : q.2 = i := by
            have := congrArg (fun e => e.2) he
            simpa using this
          rw [← h2, ← h3]
          exact hq
      · exact ⟨inner, Or.inr hm, hi⟩
    · rintro ⟨inner, hm | hm, hi⟩
      · left
        have h1 : p.1 = bc := congrArg Prod.fst hm.symm
        have h2 : p.2 = inner := congrArg Prod.snd hm.symm
        refine ⟨(sq, i), ?_, ?_⟩
        · rw [h2]
          exact hi
        · rw [h1]
      · right
        exact ⟨inner, hm, hi⟩

theorem findPos_iff_entry (coll : FastqMultiRecordCollectionSE)
    (hout : (coll.bcMap.map Prod.fst).Nodup)
    (hin : ∀ p ∈ coll.bcMap, (p.2.map Prod.fst).Nodup)
    (bc sq : List Char) (i : ℕ) :
    findMultiRecordPosition coll bc sq = some i ↔ ((bc, sq), i) ∈ entriesOf coll.bcMap := by
  rw [mem_entriesOf]
  constructor
  · intro h
    rw [findMultiRecordPosition] at h
    cases hfind : mapFind coll.bcMap bc with
    | none => rw [hfind] at h; cases h
    | some inner =>
      rw [hfind] at h
      exact ⟨inner, mem_of_mapFind _ _ _ hfind, mem_of_mapFind _ _ _ h⟩
  · rintro ⟨inner, hm, hi⟩
    rw [findMultiRecordPosition, mapFind_of_mem _ _ _ hout hm]
    exact mapFind_of_mem _ _ _ (hin (bc, inner) hm) hi

theorem findPos_none_no_entry (coll : FastqMultiRecordCollectionSE)
    (hout : (coll.bcMap.map Prod.fst).Nodup)
    (hin : ∀ p ∈ coll.bcMap, (p.2.map Prod.fst).Nodup)
    (bc sq : List Char) (i : ℕ)
    (hpos : findMultiRecordPosition coll bc sq = none) :
    ((bc, sq), i) ∉ entriesOf coll.bcMap := by
  intro hmem
  rw [← findPos_iff_entry coll hout hin bc sq i] at hmem
  rw [hpos] at hmem
  cases hmem

theorem getD_set_self (l : List FastqMultiRecordSE) (i : ℕ) (x d : FastqMultiRecordSE)
    (h : i < l.length) : (l.set i x).getD i d = x := by
  induction l generalizing i with
  | nil => simp at h
  | cons a l ih =>
    cases i with
    | zero => rfl
    | succ i =>
      simp only [List.set]
      simp only [List.getD_cons_succ]
      exact ih i (by simpa using h)

theorem getD_set_ne (l : List FastqMultiRecordSE) (i j : ℕ) (x d : FastqMultiRecordSE)
    (h : j ≠ i) : (l.set i x).getD j d = l.getD j d := by
  induction l generalizing i j with
  | nil => simp
  | cons a l ih =>
    cases i with
    | zero =>
      cases j with
      | zero => exact absurd rfl h
      | succ j => simp [List.set, List.getD_cons_succ]
    | succ i =>
      cases j with
      | zero => simp [List.set, List.getD_cons_zero]
      | succ j =>
        simp only [List.set, List.getD_cons_succ]
        exact ih i j (fun hj => h (by rw [hj]))

theorem getD_append_lt (l l' : List FastqMultiRecordSE) (j : ℕ) (d : FastqMultiRecordSE)
    (h : j < l.length) : (l ++ l').getD j d = l.getD j d := by
  induction l generalizing j with
  | nil => simp at h
  | cons a l ih =>
    cases j with
    | zero => rfl
    | succ j =>
      simp only [List.cons_append, List.getD_cons_succ]
      exact ih j (by simpa using h)

theorem sum_map_nodup_point (l : List ℕ) (f g : ℕ → ℕ) (i : ℕ) (hnd : l.Nodup)
    (hi : i ∈ l) (hoff : ∀ j ∈ l, j ≠ i → f j = g j) (hfi : f i = g i + 1) :
    (l.map f).sum = (l.map g).sum + 1 := by
  induction l with
  | nil => cases hi
  | cons a l ih =>
    rw [List.nodup_cons] at hnd
    rcases List.mem_cons.mp hi with hi | hi
    · subst hi
      have hmap : l.map f = l.map g := by
        apply List.map_congr_left
        intro j hj
        exact hoff j (List.mem_cons_of_mem _ hj) (fun hj' => hnd.1 (hj' ▸ hj))
      simp only [List.map_cons, List.sum_cons, hmap, hfi]
      omega
    · have ha : a ≠ i := fun ha => hnd.1 (ha ▸ hi)
      have hfa : f a = g a := hoff a (List.mem_cons_self a l) ha
      simp only [List.map_cons, List.sum_cons, hfa,
        ih hnd.2 hi (fun j hj hji => hoff j (List.mem_cons_of_mem _ hj) hji)]
      omega

theorem entries_insert_perm (m : List (List Char × List (List Char × ℕ)))
    (k1 k2 : List Char) (n : ℕ)
    (h : mapFind m k1 = none ∨
      ∃ inner, mapFind m k1 = some inner ∧ mapFind inner k2 = none) :
    List.Perm (entriesOf (mapSet m k1 (mapSet ((mapFind m k1).getD []) k2 n)))
      (((k1, k2), n) :: entriesOf m) := by
  rcases h with h | ⟨inner, h, h2⟩
  · rw [h]
    simp only [Option.getD_none]
    rw [mapSet_absent m k1 _ h, entriesOf_append]
    simp only [entriesOf, mapSet, List.map_cons, List.map_nil, List.append_nil]
    exact List.perm_append_singleton _ _
  · rw [h]
    simp only [Option.getD_some]
    obtain ⟨m1, m2, hm, _, hset⟩ := mapSet_present_decomp m k1 inner h
    rw [hset, mapSet_absent inner k2 n h2, hm, entriesOf_append, entriesOf_append]
    simp only [entriesOf, List.map_append, List.map_cons, List.map_nil, List.append_nil]
    have hmid : entriesOf m1 ++ (inner.map (fun q => ((k1, q.1), q.2)) ++ [((k1, k2), n)]
        ++ entriesOf m2)
        = (entriesOf m1 ++ inner.map (fun q => ((k1, q.1), q.2))) ++ ((k1, k2), n) :: entriesOf m2 := by
      simp
    rw [show entriesOf m1 ++ (inner.map (fun q => ((k1, q.1), q.2)) ++ [((k1, k2), n)]
        ++ entriesOf m2)
        = (entriesOf m1 ++ inner.map (fun q => ((k1, q.1), q.2))) ++ ((k1, k2), n) :: entriesOf m2
      from by simp]
    refine (List.perm_middle).trans ?_
    simp [List.append_assoc]

theorem outer_keys_mapSet_present {α : Type} (m : List (List Char × α)) (k : List Char)
    (v' : α) (inner : α) (h : mapFind m k = some inner) :
    (mapSet m k v').map Prod.fst = m.map Prod.fst := by
  obtain ⟨m1, m2, hm, _, hset⟩ := mapSet_present_decomp m k inner h
  rw [hset, hm]
  simp

theorem outer_keys_mapSet_absent {α : Type} (m : List (List Char × α)) (k : List Char)
    (v : α) (h : mapFind m k = none) :
    (mapSet m k v).map Prod.fst = m.map Prod.fst ++ [k] := by
  rw [mapSet_absent m k v h]
  simp

theorem mem_mapSet {α : Type} (m : List (List Char × α)) (k : List Char) (v : α)
    (p : List Char × α) (hp : p ∈ mapSet m k v) : p ∈ m ∨ p = (k, v) := by
  induction m with
  | nil =>
    right
    simpa [mapSet] using hp
  | cons q m ih =>
    by_cases hq : q.1 = k
    · rw [mapSet, if_pos hq] at hp
      rcases List.mem_cons.mp hp with h | h
      · right; exact h
      · left; exact List.mem_cons_of_mem _ h
    · rw [mapSet, if_neg hq] at hp
      rcases List.mem_cons.mp hp with h | h
      · left
        rw [h]
        exact List.mem_cons_self q m
      · rcases ih h with h' | h'
        · left; exact List.mem_cons_of_mem _ h'
        · right; exact h'

theorem nodup_append_singleton {α : Type} (l : List α) (a : α) (hnd : l.Nodup)
    (ha : a ∉ l) : (l ++ [a]).Nodup := by
  rw [(List.perm_append_singleton a l).nodup_iff]
  exact List.nodup_cons.mpr ⟨ha, hnd⟩

theorem collInv_insertRecord (coll : FastqMultiRecordCollectionSE)
    (S : Finset (String × List Char × List Char)) (r : FastqRecordSE)
    (h : CollInv coll S) :
    CollInv (insertRecord coll r) (insert (tripleOf r) S) := by
  cases hpos : findMultiRecordPosition coll (bases r.bcSeq) (bases r.seq) with
  | some i =>
    have hentry : ((bases r.bcSeq, bases r.seq), i) ∈ entriesOf coll.bcMap :=
      (findPos_iff_entry coll h.outerNodup h.innerNodup _ _ i).mp hpos
    have hilt : i < coll.multiRecordPtrs.length := h.idxLt _ hentry
    by_cases hmem : r.id ∈ (getMR coll i).ids
    · have hcoll : insertRecord coll r = coll := by
        simp [insertRecord, findContainingMultiRecord, hpos, hmem]
      have hS : tripleOf r ∈ S := (h.content r.id _ _).mpr ⟨i, hentry, hmem⟩
      rw [hcoll, Finset.insert_eq_self.mpr hS]
      exact h
    · have hcoll : insertRecord coll r
          = { coll with
              multiRecordPtrs :=
                coll.multiRecordPtrs.set i (updateMultiRecord (getMR coll i) r) } := by
        simp [insertRecord, findContainingMultiRecord, hpos, hmem]
      have hget_i : getMR (insertRecord coll r) i = updateMultiRecord (getMR coll i) r := by
        rw [hcoll]
        exact getD_set_self _ _ _ _ hilt
      have hget_ne : ∀ j, j ≠ i → getMR (insertRecord coll r) j = getMR coll j := by
        intro j hj
        rw [hcoll]
        exact getD_set_ne _ _ _ _ _ hj
      have hids : (updateMultiRecord (getMR coll i) r).ids = insert r.id (getMR coll i).ids :=
        rfl
      have hSnot : tripleOf r ∉ S := by
        intro hin
        obtain ⟨j, hj, hjmem⟩ := (h.content r.id _ _).mp hin
        have hj' : findMultiRecordPosition coll (bases r.bcSeq) (bases r.seq) = some j :=
          (findPos_iff_entry coll h.outerNodup h.innerNodup _ _ j).mpr hj
        rw [hpos] at hj'
        have hji : j = i := by
          injection hj' with hj''
          exact hj''.symm
        rw [hji] at hjmem
        exact hmem hjmem
      have hbc : (insertRecord coll r).bcMap = coll.bcMap := by rw [hcoll]
      refine ⟨?_, ?_, ?_, ?_, ?_, ?_⟩
      · rw [hbc]; exact h.outerNodup
      · rw [hbc]; exact h.innerNodup
      · intro e he
        rw [hbc] at he
        rw [hcoll]
        simpa [List.length_set] using h.idxLt e he
      · rw [hbc]; exact h.idxNodup
      · intro idv bc sq
        rw [hbc]
        constructor
        · intro hin
          rcases Finset.mem_insert.mp hin with heq | hin'
          · simp only [tripleOf, Prod.mk.injEq] at heq
            obtain ⟨h1, h2, h3⟩ := heq
            subst h1; subst h2; subst h3
            refine ⟨i, hentry, ?_⟩
            rw [hget_i, hids]
            exact Finset.mem_insert_self _ _
          · obtain ⟨j, hj, hjm⟩ := (h.content idv bc sq).mp hin'
            by_cases hji : j = i
            · subst hji
              refine ⟨j, hj, ?_⟩
              rw [hget_i, hids]
              exact Finset.mem_insert_of_mem hjm
            · exact ⟨j, hj, by rw [hget_ne j hji]; exact hjm⟩
        · rintro ⟨j, hj, hjm⟩
          by_cases hji : j = i
          · subst hji
            rw [hget_i, hids] at hjm
            rcases Finset.mem_insert.mp hjm with hid | hid
            · have hkey := List.inj_on_of_nodup_map h.idxNodup hj hentry rfl
              simp only [Prod.mk.injEq] at hkey
              apply Finset.mem_insert.mpr
              left
              simp [tripleOf, hid, hkey.1.1, hkey.1.2]
            · exact Finset.mem_insert_of_mem ((h.content idv bc sq).mpr ⟨j, hj, hid⟩)
          · rw [hget_ne j hji] at hjm
            exact Finset.mem_insert_of_mem ((h.content idv bc sq).mpr ⟨j, hj, hjm⟩)
      · have hsum : sumCards (insertRecord coll r) = sumCards coll + 1 := by
          rw [sumCards, sumCards, hbc]
          have hmm : ∀ c : FastqMultiRecordCollectionSE,
              (entriesOf coll.bcMap).map (fun e => (getMR c e.2).ids.card)
                = ((entriesOf coll.bcMap).map Prod.snd).map (fun j => (getMR c j).ids.card) := by
            intro c
            rw [List.map_map]
            rfl
          rw [hmm, hmm]
          apply sum_map_nodup_point _ _ _ i h.idxNodup
          · exact List.mem_map_of_mem Prod.snd hentry
          · intro j hj hji
            rw [hget_ne j hji]
          · rw [hget_i, hids]
            exact Finset.card_insert_of_not_mem hmem
        rw [hsum, h.total, Finset.card_insert_of_not_mem hSnot]
  | none =>
    have hcoll : insertRecord coll r
        = { multiRecordPtrs := coll.multiRecordPtrs ++ [newMultiRecord r]
            bcMap := mapSet coll.bcMap (bases r.bcSeq)
              (mapSet ((mapFind coll.bcMap (bases r.bcSeq)).getD []) (bases r.seq)
                coll.multiRecordPtrs.length) } := by
      simp [insertRecord, findContainingMultiRecord, hpos, mapMultiRecord, newMultiRecord]
    have hcase : mapFind coll.bcMap (bases r.bcSeq) = none ∨
        ∃ inner, mapFind coll.bcMap (bases r.bcSeq) = some inner
          ∧ mapFind inner (bases r.seq) = none := by
      rw [findMultiRecordPosition] at hpos
      cases hfind : mapFind coll.bcMap (bases r.bcSeq) with
      | none => exact Or.inl rfl
      | some inner =>
        rw [hfind] at hpos
        exact Or.inr ⟨inner, rfl, hpos⟩
    have hperm' : List.Perm (entriesOf (insertRecord coll r).bcMap)
        (((bases r.bcSeq, bases r.seq), coll.multiRecordPtrs.length)
          :: entriesOf coll.bcMap) := by
      rw [hcoll]
      exact entries_insert_perm coll.bcMap (bases r.bcSeq) (bases r.seq)
        coll.multiRecordPtrs.length hcase
    have hget_old : ∀ j, j < coll.multiRecordPtrs.length →
        getMR (insertRecord coll r) j = getMR coll j := by
      intro j hj
      rw [hcoll]
      exact getD_append_lt _ _ _ _ hj
    have hget_n : getMR (insertRecord coll r) coll.multiRecordPtrs.length
        = newMultiRecord r := by
      rw [hcoll]
      exact getD_append_length _ _ _
    have hlen : (insertRecord coll r).multiRecordPtrs.length
        = coll.multiRecordPtrs.length + 1 := by
      rw [hcoll]
      simp
    have hSnot : tripleOf r ∉ S := by
      intro hin
      obtain ⟨j, hj, _⟩ := (h.content r.id _ _).mp hin
      exact findPos_none_no_entry coll h.outerNodup h.innerNodup _ _ j hpos hj
    have hnotidx : coll.multiRecordPtrs.length ∉ (entriesOf coll.bcMap).map Prod.snd := by
      intro hmem
      obtain ⟨e, he, hen⟩ := List.mem_map.mp hmem
      have := h.idxLt e he
      omega
    refine ⟨?_, ?_, ?_, ?_, ?_, ?_⟩
    · rw [hcoll]
      rcases hcase with hc | ⟨inner, hc, hc2⟩
      · rw [outer_keys_mapSet_absent _ _ _ hc]
        exact nodup_append_singleton _ _ h.outerNodup (key_not_mem_of_mapFind_none _ _ hc)
      · rw [outer_keys_mapSet_present _ _ _ inner hc]
        exact h.outerNodup
    · rw [hcoll]
      intro p hp
      rcases mem_mapSet _ _ _ p hp with hpm | hpe
      · exact h.innerNodup p hpm
      · rcases hcase with hc | ⟨inner, hc, hc2⟩
        · rw [hpe]
          simp [hc, mapSet]
        · rw [hpe]
          simp only [hc, Option.getD_some]
          rw [mapSet_absent inner (bases r.seq) _ hc2]
          simp only [List.map_append]
          exact nodup_append_singleton _ _
            (h.innerNodup (bases r.bcSeq, inner) (mem_of_mapFind _ _ _ hc))
            (key_not_mem_of_mapFind_none inner (bases r.seq) hc2)
    · intro e he
      rw [hlen]
      rcases List.mem_cons.mp ((hperm'.mem_iff).mp he) with heq | hee
      · rw [heq]
        simp
      · have := h.idxLt e hee
        omega
    · have hpm : List.Perm ((entriesOf (insertRecord coll r).bcMap).map Prod.snd)
          (coll.multiRecordPtrs.length :: (entriesOf coll.bcMap).map Prod.snd) := by
        simpa using hperm'.map Prod.snd
      rw [hpm.nodup_iff]
      exact List.nodup_cons.mpr ⟨hnotidx, h.idxNodup⟩
    · intro idv bc sq
      constructor
      · intro hin
        rcases Finset.mem_insert.mp hin with heq | hin'
        · simp only [tripleOf, Prod.mk.injEq] at heq
          obtain ⟨h1, h2, h3⟩ := heq
          subst h1; subst h2; subst h3
          refine ⟨coll.multiRecordPtrs.length,
            (hperm'.mem_iff).mpr (List.mem_cons_self _ _), ?_⟩
          rw [hget_n]
          simp [newMultiRecord]
        · obtain ⟨j, hj, hjm⟩ := (h.content idv bc sq).mp hin'
          have hjn : j < coll.multiRecordPtrs.length := h.idxLt _ hj
          refine ⟨j, (hperm'.mem_iff).mpr (List.mem_cons_of_mem _ hj), ?_⟩
          rw [hget_old j hjn]
          exact hjm
      · rintro ⟨j, hj, hjm⟩
        rcases List.mem_cons.mp ((hperm'.mem_iff).mp hj) with heq | hee
        · simp only [Prod.mk.injEq] at heq
          obtain ⟨⟨hbc1, hsq1⟩, hjn⟩ := heq
          subst hjn
          rw [hget_n] at hjm
          have hidv : idv = r.id := by
            simpa [newMultiRecord] using hjm
          apply Finset.mem_insert.mpr
          left
          simp [tripleOf, hidv, hbc1, hsq1]
        · have hjn : j < coll.multiRecordPtrs.length := h.idxLt _ hee
          rw [hget_old j hjn] at hjm
          exact Finset.mem_insert_of_mem ((h.content idv bc sq).mpr ⟨j, hee, hjm⟩)
    · rw [sumCards]
      rw [(hperm'.map (fun e => (getMR (insertRecord coll r) e.2).ids.card)).sum_eq]
      simp only [List.map_cons, List.sum_cons]
      have hcongr : (entriesOf coll.bcMap).map
            (fun e => (getMR (insertRecord coll r) e.2).ids.card)
          = (entriesOf coll.bcMap).map (fun e => (getMR coll e.2).ids.card) := by
        apply List.map_congr_left
        intro e he
        rw [hget_old e.2 (h.idxLt e he)]
      rw [hcongr]
      have hn1 : (getMR (insertRecord coll r) coll.multiRecordPtrs.length).ids.card = 1 := by
        rw [hget_n]
        simp [newMultiRecord]
      rw [hn1]
      have htot : sumCards coll = S.card := h.total
      rw [sumCards] at htot
      rw [htot, Finset.card_insert_of_not_mem hSnot]
      omega

theorem collInv_empty : CollInv emptyCollection ∅ := by
  refine ⟨?_, ?_, ?_, ?_, ?_, ?_⟩
  · simp [emptyCollection]
  · simp [emptyCollection]
  · simp [emptyCollection, entriesOf]
  · simp [emptyCollection, entriesOf]
  · intro idv bc sq
    simp [emptyCollection, entriesOf]
  · simp [sumCards, emptyCollection, entriesOf]

theorem collInv_foldl (recs : List FastqRecordSE) :
    ∀ (coll : FastqMultiRecordCollectionSE) (S : Finset (String × List Char × List Char)),
    CollInv coll S →
    CollInv (recs.foldl insertRecord coll)
      (recs.foldl (fun s rc => insert (tripleOf rc) s) S) := by
  induction recs with
  | nil => intro coll S h; exact h
  | cons rc recs ih =>
    intro coll S h
    exact ih _ _ (collInv_insertRecord coll S rc h)

theorem foldl_insert_union (l : List (String × List Char × List Char)) :
    ∀ S : Finset (String × List Char × List Char),
    l.foldl (fun s t => insert t s) S = S ∪ l.toFinset := by
  induction l with
  | nil => intro S; simp
  | cons a l ih =>
    intro S
    rw [List.foldl_cons, ih, List.toFinset_cons, Finset.insert_union, Finset.union_insert]

theorem seqMapCounts_fst (coll : FastqMultiRecordCollectionSE) (m : List (List Char × ℕ)) :
    (seqMapCounts coll m).1 = (m.map (fun q => (getMR coll q.2).ids.card)).sum := by
  induction m with
  | nil => rfl
  | cons q m ih => simp [seqMapCounts, ih]

theorem seqMapCounts_le (coll : FastqMultiRecordCollectionSE) (m : List (List Char × ℕ)) :
    (seqMapCounts coll m).2 ≤ (seqMapCounts coll m).1 := by
  induction m with
  | nil => exact le_refl 0
  | cons q m ih =>
    rw [seqMapCounts]
    by_cases hs : 0 < (getMR coll q.2).ids.card <;> simp [hs] <;> omega

theorem statsAccum_totalReads (coll : FastqMultiRecordCollectionSE)
    (m : List (List Char × List (List Char × ℕ))) :
    (statsAccum coll m).nTotalReads
      = ((entriesOf m).map (fun e => (getMR coll e.2).ids.card)).sum := by
  induction m with
  | nil => rfl
  | cons p rest ih =>
    have hblock : ((p.2.map (fun q => ((p.1, q.1), q.2))).map
          (fun e => (getMR coll e.2).ids.card)).sum
        = (seqMapCounts coll p.2).1 := by
      rw [List.map_map, seqMapCounts_fst]
      rfl
    rw [statsAccum]
    by_cases hc : 0 < (seqMapCounts coll p.2).1
    · rw [if_pos hc]
      simp only [entriesOf, List.map_append, List.sum_append, hblock, ih]
    · rw [if_neg hc]
      simp only [entriesOf, List.map_append, List.sum_append, hblock, ih]
      omega
    
theorem statsAccum_unique_le (coll : FastqMultiRecordCollectionSE)
    (m : List (List Char × List (List Char × ℕ))) :
    (statsAccum coll m).nUniqueReads.sum ≤ (statsAccum coll m).nReads.sum := by
  induction m with
  | nil => exact le_refl 0
  | cons p rest ih =>
    rw [statsAccum]
    by_cases hc : 0 < (seqMapCounts coll p.2).1
    · rw [if_pos hc]
      simp only [List.sum_cons]
      have := seqMapCounts_le coll p.2
      omega
    · rw [if_neg hc]
      exact ih

theorem foldl_insert_map_union (g : FastqRecordSE → String × List Char × List Char)
    (l : List FastqRecordSE) :
    ∀ S : Finset (String × List Char × List Char),
    l.foldl (fun s rc => insert (g rc) s) S = S ∪ (l.map g).toFinset := by
  induction l with
  | nil => intro S; simp
  | cons a l ih =>
    intro S
    rw [List.foldl_cons, ih, List.map_cons, List.toFinset_cons, Finset.insert_union,
      Finset.union_insert]

/-- C3 counterexample: a batch delivering the same accepted record twice
(identifier r1, identical content, no rejects) yields a grand total read
count of 1, not 2 — the identifier set deduplicates the re-submission, so
the grand total equals the number of distinct identifier-and-content
combinations, not the number of accepted records. -/
theorem claim_C3_counterexample :
    (readRecords emptyCollection [] streamDup optsPermissive 0).rejectEvents = []
    ∧ streamDup.reads.length = 2
    ∧ (getBarcodeStats
        (readRecords emptyCollection [] streamDup optsPermissive 0).collection).nTotalReads
      = 1 :=
  ⟨by decide, by decide, by decide⟩

/-- C3 amended: after any `readRecords` batch, the per-barcode unique-read
counts sum to at most the per-barcode read counts, and the grand total read
count equals the number of distinct (identifier, barcode, sequence)
combinations among the accepted records of the batch — which is the number
of accepted records exactly when no accepted record repeats the
identifier-and-content of an earlier one. -/
theorem claim_C3_amended (c0 : FastqMultiRecordCollectionSE) (rej0 : List RejectEvent)
    (streams : SeqInputStreamsSE) (opts : CdrOptions) (count : ℕ) :
    (getBarcodeStats (readRecords c0 rej0 streams opts count).collection).nUniqueReads.sum
      ≤ (getBarcodeStats (readRecords c0 rej0 streams opts count).collection).nReads.sum
    ∧ (getBarcodeStats (readRecords c0 rej0 streams opts count).collection).nTotalReads
      = ((acceptedRecs opts count streams.reads).map tripleOf).toFinset.card := by
  have hcoll : (readRecords c0 rej0 streams opts count).collection
      = (acceptedRecs opts count streams.reads).foldl insertRecord emptyCollection := by
    simp only [readRecords, readRecordsLoop_spec, acceptedRecs, clearCollection]
    rw [foldl_filter_map (fun w => verdictOf opts w = RejectReason.NONE)
      (fun w => (processRaw opts w).2) insertRecord]
    rfl
  constructor
  · exact statsAccum_unique_le _ _
  · have hset : (acceptedRecs opts count streams.reads).foldl
        (fun s rc => insert (tripleOf rc) s) ∅
        = ((acceptedRecs opts count streams.reads).map tripleOf).toFinset := by
      rw [foldl_insert_map_union, Finset.empty_union]
    have hinv := collInv_foldl (acceptedRecs opts count streams.reads)
      emptyCollection ∅ collInv_empty
    have htot := hinv.total
    rw [sumCards] at htot
    rw [hcoll, getBarcodeStats, statsAccum_totalReads, htot, hset]
